import Mathlib

/-!
Verification of the IPTVmigu playlist scripts.

The development shallowly embeds the three playlist-processing scripts
(`scripts/extract.py`, `scripts/m3u_merger.py`, `scripts/m3u_mergerng.py`).
Text is modelled as `List Char` (`Str`); Python string operations are
translated char-by-char.  Python sets of URL strings are modelled as
insertion-ordered duplicate-free lists (serialization sorts them, so the
model is observationally equivalent).  File reads that may fail are
modelled with `Option`, and "the run writes output" is modelled as an
`Option` result of the run function.
-/

/-- Text is a list of characters (Python `str`). -/
abbrev Str := List Char

/-- Turn a literal into the character-list model. -/
def str (s : String) : Str := s.data

/-- Python `s.startswith(p)`. -/
def isPre : Str → Str → Bool
  | [], _ => true
  | _ :: _, [] => false
  | a :: as, b :: bs => a = b && isPre as bs

/-- Python `p in s` (substring containment). -/
def isSub (p : Str) : Str → Bool
  | [] => p.isEmpty
  | t@(_ :: ts) => isPre p t || isSub p ts

/-- Drop leading whitespace. -/
def stripL (l : Str) : Str := l.dropWhile Char.isWhitespace

/-- Python `s.strip()`: drop leading and trailing whitespace. -/
def stripBoth (l : Str) : Str := ((stripL l).reverse.dropWhile Char.isWhitespace).reverse

/-- Python `s.strip(c)` for a single character `c`: drop that character
from both ends. -/
def stripChar (c : Char) (l : Str) : Str :=
  (((l.dropWhile (· = c)).reverse.dropWhile (· = c))).reverse

/-- Python `s.split(c)` on a one-character separator. -/
def splitOnChar (c : Char) : Str → List Str
  | [] => [[]]
  | a :: rest =>
    if a = c then [] :: splitOnChar c rest
    else
      match splitOnChar c rest with
      | [] => [[a]]
      | x :: xs => (a :: x) :: xs

/-- Python `s.split(cc)` on a two-character separator consisting of the
character `c` twice (used for `"&&"` and `"||"`). -/
def splitOn2 (c : Char) : Str → List Str
  | [] => [[]]
  | [a] => [[a]]
  | a :: b :: rest =>
    if a = c ∧ b = c then [] :: splitOn2 c rest
    else
      match splitOn2 c (b :: rest) with
      | [] => [[a]]
      | x :: xs => (a :: x) :: xs

/-- Split at the first occurrence of a character: `some (before, after)`. -/
def splitFirst (c : Char) : Str → Option (Str × Str)
  | [] => none
  | a :: rest =>
    if a = c then some ([], rest)
    else (splitFirst c rest).map (fun p => (a :: p.1, p.2))

/-- The remainder of the text after the first occurrence of `p`, if any
(the tail used by `re.search` for a literal pattern). -/
def afterSub (p : Str) : Str → Option Str
  | [] => if p = [] then some [] else none
  | t@(_ :: ts) => if isPre p t then some (t.drop p.length) else afterSub p ts

/-- Association-list lookup (model of Python `dict` access). -/
def lookupA {κ α : Type} [DecidableEq κ] : List (κ × α) → κ → Option α
  | [], _ => none
  | (k, v) :: rest, key => if k = key then some v else lookupA rest key

/-- Association-list update of an existing key (Python `dict` item assignment
for a key already present). -/
def updateA {κ α : Type} [DecidableEq κ] : List (κ × α) → κ → α → List (κ × α)
  | [], _, _ => []
  | (k, v) :: rest, key, nv =>
    if k = key then (k, nv) :: rest else (k, v) :: updateA rest key nv

/-- Add an element to a Python `set` modelled as a duplicate-free list. -/
def insertUniq {α : Type} [DecidableEq α] (x : α) (l : List α) : List α :=
  if x ∈ l then l else l ++ [x]

/-- Python `list.insert(i, a)` (clamping an index past the end to append). -/
def pyInsert {α : Type} : List α → Nat → α → List α
  | l, 0, a => a :: l
  | [], _ + 1, a => [a]
  | x :: xs, i + 1, a => x :: pyInsert xs i a

/-- Python `list.index(x)` (meaningful when `x` is a member). -/
def idxOf {α : Type} [DecidableEq α] (x : α) : List α → Nat
  | [] => 0
  | a :: rest => if a = x then 0 else idxOf x rest + 1

/-- Lexicographic (code-point) order on strings, as Python `<=` on `str`. -/
def strLe : Str → Str → Bool
  | [], _ => true
  | _ :: _, [] => false
  | x :: xs, y :: ys => if x = y then strLe xs ys else decide (x < y)

/-- Insertion step of a stable sort. -/
def ordInsert {α : Type} (le : α → α → Bool) (a : α) : List α → List α
  | [] => [a]
  | b :: l => if le a b then a :: b :: l else b :: ordInsert le a l

/-- Stable sort by a boolean total preorder; Python `list.sort` is stable,
and a stable sort is uniquely determined by the preorder, so this models
`list.sort(key=...)` exactly. -/
def insSort {α : Type} (le : α → α → Bool) : List α → List α
  | [] => []
  | a :: l => ordInsert le a (insSort le l)

/-- `sorted(list(urlset))`: the URL set in lexicographic order. -/
def sortUrls (urls : List Str) : List Str := insSort strLe urls

/-- Python `set.update`: add each new element to the modelled set. -/
def urlsUnion (old new : List Str) : List Str :=
  new.foldl (fun acc u => insertUniq u acc) old

/-! ## scripts/extract.py -/

/-- `_check_match(text, keyword_str)` from `extract.py`: keyword matching
with `&&` conjunction and `||` disjunction over substring tests. -/
def check_match (text kw : Str) : Bool :=
  if kw = [] ∨ stripBoth kw = [] then false
  else if isSub (str "&&") (stripChar '"' (stripBoth kw)) then
    (((splitOn2 '&' (stripChar '"' (stripBoth kw))).map stripBoth).filter
      (fun k => !k.isEmpty)).all (fun k => isSub k text)
  else if isSub (str "||") (stripChar '"' (stripBoth kw)) then
    (((splitOn2 '|' (stripChar '"' (stripBoth kw))).map stripBoth).filter
      (fun k => !k.isEmpty)).any (fun k => isSub k text)
  else isSub (stripChar '"' (stripBoth kw)) text

/-- The keyword configuration of one `extract.py` run: the optional AND-mode
pair (`--eandu`), the optional OR-mode pair (`--eoru`, checked second), and
the `-r` / `-n` flags. -/
structure MatchArgs where
  andKw : Option (Str × Str)
  orKw : Option (Str × Str)
  remove : Bool
  noConfig : Bool

/-- The `matched` computation of `extract_keyword_lines` for one record. -/
def computeMatched (args : MatchArgs) (extinf url : Str) : Bool :=
  match args.andKw with
  | some p => check_match extinf p.1 && check_match url p.2
  | none =>
    match args.orKw with
    | some p => check_match extinf p.1 || check_match url p.2
    | none => false

/-- Parsing of the `--eandu` argument: two comma-separated keywords, both
required to be non-empty after stripping. -/
def parseAndPair (s : Str) : Option (Str × Str) :=
  match (splitOnChar ',' s).map stripBoth with
  | [a, b] => if a = [] ∨ b = [] then none else some (a, b)
  | _ => none

/-- Parsing of the `--eoru` argument: two comma-separated keywords
(emptiness is not checked). -/
def parseOrPair (s : Str) : Option (Str × Str) :=
  match (splitOnChar ',' s).map stripBoth with
  | [a, b] => some (a, b)
  | _ => none

/-- The inner probe loop of `extract_keyword_lines`: starting from the lines
after a metadata line, collect `#`-lines as configuration lines until a
non-`#` line (the URL) or another `#EXTINF` line (record discarded, scanning
resumes at it) or end of input.  Returns the configuration lines, the URL if
found, and the lines at which the outer loop resumes. -/
def probe : List Str → List Str × Option Str × List Str
  | [] => ([], none, [])
  | l :: ls =>
    if isPre (str "#EXTINF") l then ([], none, l :: ls)
    else if isPre (str "#") l then
      let r := probe ls
      (l :: r.1, r.2.1, r.2.2)
    else ([], some l, ls)

theorem probe_rest_length (ls : List Str) : (probe ls).2.2.length ≤ ls.length := by
  induction ls with
  | nil => simp [probe]
  | cons l ls ih =>
    simp only [probe]
    split
    · simp
    · split
      · simpa using Nat.le_succ_of_le ih
      · simp

/-- One output block of `extract_keyword_lines`: a kept record, or a
non-record line passed through in remove mode. -/
inductive Block where
  | record (extinf : Str) (cfgs : List Str) (url : Str)
  | passthrough (line : Str)
deriving DecidableEq

/-- The main scan loop of `extract_keyword_lines`: the ordered record
blocks, with the `seen_record_pairs` deduplication set threaded through.
The loop advances by a computed number of lines per iteration, so it is
written with explicit fuel; `extractLoop` below supplies fuel equal to the
number of lines, which always suffices (`extractLoopF_fuel`). -/
def extractLoopF (args : MatchArgs) : Nat → List (Str × Str) → List Str → List Block
  | 0, _, _ => []
  | _ + 1, _, [] => []
  | fuel + 1, seen, l :: ls =>
    if isPre (str "#EXTINF") l then
      match (probe ls).2.1 with
      | some url =>
        let m := computeMatched args l url
        if (if args.remove then !m else m) then
          if (l, url) ∈ seen then extractLoopF args fuel seen (probe ls).2.2
          else
            Block.record l (probe ls).1 url ::
              extractLoopF args fuel ((l, url) :: seen) (probe ls).2.2
        else extractLoopF args fuel seen (probe ls).2.2
      | none => extractLoopF args fuel seen (probe ls).2.2
    else
      if args.remove then Block.passthrough l :: extractLoopF args fuel seen ls
      else extractLoopF args fuel seen ls

/-- The scan loop with sufficient fuel. -/
def extractLoop (args : MatchArgs) (seen : List (Str × Str)) (ls : List Str) :
    List Block :=
  extractLoopF args ls.length seen ls

/-- The complete records found by the scan of `extract_keyword_lines`,
before matching and deduplication, in source order (same fueled loop). -/
def scanRecordsF : Nat → List Str → List (Str × List Str × Str)
  | 0, _ => []
  | _ + 1, [] => []
  | fuel + 1, l :: ls =>
    if isPre (str "#EXTINF") l then
      match (probe ls).2.1 with
      | some url => (l, (probe ls).1, url) :: scanRecordsF fuel (probe ls).2.2
      | none => scanRecordsF fuel (probe ls).2.2
    else scanRecordsF fuel ls

/-- The record scan with sufficient fuel. -/
def scanRecords (ls : List Str) : List (Str × List Str × Str) :=
  scanRecordsF ls.length ls

/-- Whether a complete record is kept, in the polarity selected by `-r`. -/
def keepB (args : MatchArgs) (r : Str × List Str × Str) : Bool :=
  let m := computeMatched args r.1 r.2.2
  if args.remove then !m else m

/-- The lines of one output block (`-n` drops the configuration lines). -/
def blockLines (noConfig : Bool) : Block → List Str
  | .record e cfgs u => if noConfig then [e, u] else e :: (cfgs ++ [u])
  | .passthrough l => [l]

/-- Flattening of the blocks with one blank separator after each block and
the final trailing blank removed, as in `extract_keyword_lines`. -/
def serializeBlocks (noConfig : Bool) (bs : List Block) : List Str :=
  let r := bs.flatMap (fun b => blockLines noConfig b ++ [[]])
  if r ≠ [] ∧ r.getLast? = some [] then r.dropLast else r

/-- `extract_keyword_lines`: `none` models a failed read (the function
catches the exception and returns the empty list). -/
def extract_keyword_lines (readResult : Option (List Str)) (args : MatchArgs) : List Str :=
  match readResult with
  | none => []
  | some rawLines =>
    let lines := (rawLines.map stripBoth).filter (fun l => !l.isEmpty)
    serializeBlocks args.noConfig (extractLoop args [] lines)

/-- The `extract.py` `__main__` flow after argument validation: the result
of `extract_keyword_lines` is written unconditionally (`some` = the run
produces an output file with these lines). -/
def extractRunWrites (readResult : Option (List Str)) (args : MatchArgs) :
    Option (List Str) :=
  some (extract_keyword_lines readResult args)

/-! ## scripts/m3u_merger.py -/

/-- `extract_group_title(info_line)`: value of the first
`group-title="..."` attribute (closing quote required), stripped;
`""` when absent. -/
def extract_group_title (info : Str) : Str :=
  match afterSub (str "group-title=\"") info with
  | some rest =>
    let val := rest.takeWhile (fun c => c ≠ '"')
    if val.length < rest.length then stripBoth val else []
  | none => []

/-- The channel-name extraction of `parse_single_m3u`
(`re.search(r',(.+)$', line)` then `.strip()`): everything after the first
comma, provided it is non-empty; a name that strips to empty is treated as
missing (it fails the later truthiness checks). -/
def extractNameM1 (l : Str) : Option Str :=
  match splitFirst ',' l with
  | some (_, tail) =>
    if tail = [] then none
    else
      let n := stripBoth tail
      if n = [] then none else some n
  | none => none

/-- One channel entity of `parse_single_m3u` / the merger accumulator:
the latest `#EXTINF` line and the URL set. -/
structure M1Chan where
  info : Str
  urls : List Str
deriving DecidableEq

/-- Parser state of `parse_single_m3u`: header, channel map keyed by the
composite `(name, group-title)` key, first-seen key order, and the key of
the channel currently receiving URLs (`None` after a reset). -/
structure M1State where
  header : Str
  chans : List ((Str × Str) × M1Chan)
  order : List (Str × Str)
  cur : Option (Str × Str)
deriving DecidableEq

/-- One line of the `parse_single_m3u` loop. -/
def m1Step (st : M1State) (l : Str) : M1State :=
  if isPre (str "#EXTM3U") l then
    if st.header = [] then { st with header := l } else st
  else if isPre (str "#EXTINF:") l then
    match extractNameM1 l with
    | some name =>
      match lookupA st.chans (name, extract_group_title l) with
      | none =>
        { st with
            chans := st.chans ++ [((name, extract_group_title l), ⟨l, []⟩)]
            order := st.order ++ [(name, extract_group_title l)]
            cur := some (name, extract_group_title l) }
      | some c =>
        { st with
            chans := updateA st.chans (name, extract_group_title l) { c with info := l }
            cur := some (name, extract_group_title l) }
    | none => { st with cur := none }
  else if isPre (str "http://") l || isPre (str "https://") l then
    match st.cur with
    | some key =>
      match lookupA st.chans key with
      | some c => { st with chans := updateA st.chans key { c with urls := insertUniq l c.urls } }
      | none => st
    | none => st
  else { st with cur := none }

/-- `parse_single_m3u`: strip every line, drop blank lines, fold the
line handler over the result. -/
def parse_single_m3u (rawLines : List Str) : M1State :=
  ((rawLines.map stripBoth).filter (fun l => !l.isEmpty)).foldl m1Step ⟨[], [], [], none⟩

/-- One group bucket of the merger accumulator (`final_channels_data`
entry): channel map keyed by name, and the group's internal order list. -/
structure GroupAcc where
  channels : List (Str × M1Chan)
  orderList : List Str
deriving DecidableEq

/-- One channel of the relative-insertion merge in `main`: existing name →
overwrite the info line, union the URLs and move `last_known_channel_index`
to the matched position (unchanged when the name is missing from the order
list); new name → insert at `last_known_channel_index + 1` and move there. -/
def groupStep : GroupAcc × Int → Str × M1Chan → GroupAcc × Int
  | (acc, lk), (name, data) =>
    match lookupA acc.channels name with
    | some c =>
      let acc2 :=
        { acc with channels := updateA acc.channels name ⟨data.info, urlsUnion c.urls data.urls⟩ }
      (acc2, if name ∈ acc.orderList then ((idxOf name acc.orderList : Nat) : Int) else lk)
    | none =>
      let i := (lk + 1).toNat
      (⟨acc.channels ++ [(name, data)], pyInsert acc.orderList i name⟩, (i : Int))

/-- The per-source-group merge pass: `last_known_channel_index` starts
at `-1`. -/
def groupPass (init : GroupAcc) (items : List (Str × M1Chan)) : GroupAcc × Int :=
  items.foldl groupStep (init, -1)

/-- The merger accumulator: group map, group first-appearance order,
header. -/
structure MergerState where
  groups : List (Str × GroupAcc)
  groupOrder : List Str
  header : Str
deriving DecidableEq

/-- Append an item to a group of the per-source regrouping dictionary
(`current_groups`), creating the group at the end on first appearance. -/
def appendGrouped {α : Type} (acc : List (Str × List α)) (g : Str) (item : α) :
    List (Str × List α) :=
  match lookupA acc g with
  | some items => updateA acc g (items ++ [item])
  | none => acc ++ [(g, [item])]

/-- Step A of `main`: regroup one parsed source by group title, preserving
the source's internal order. -/
def regroup (order : List (Str × Str)) (chans : List ((Str × Str) × M1Chan)) :
    List (Str × List (Str × M1Chan)) :=
  order.foldl
    (fun acc key =>
      match lookupA chans key with
      | some data => appendGrouped acc key.2 (key.1, data)
      | none => acc)
    []

/-- Step B of `main` for one source group: initialize the accumulator
bucket on first appearance, then run the relative-insertion pass. -/
def processGroup (st : MergerState) (g : Str) (items : List (Str × M1Chan)) :
    MergerState :=
  let st1 :=
    match lookupA st.groups g with
    | some _ => st
    | none =>
      { st with groups := st.groups ++ [(g, ⟨[], []⟩)], groupOrder := st.groupOrder ++ [g] }
  match lookupA st1.groups g with
  | some acc => { st1 with groups := updateA st1.groups g (groupPass acc items).1 }
  | none => st1

/-- Processing of one input file in `main`: parse, keep the first header
seen, regroup, and merge every group. -/
def processSource (st : MergerState) (src : List Str) : MergerState :=
  let p := parse_single_m3u src
  let st1 := if st.header = [] ∧ p.header ≠ [] then { st with header := p.header } else st
  (regroup p.order p.chans).foldl (fun s gi => processGroup s gi.1 gi.2) st1

/-- The whole merge of `main` over the input files, in order. -/
def mergeAll (sources : List (List Str)) : MergerState :=
  sources.foldl processSource ⟨[], [], []⟩

/-- The records serialized for one group: one `(info, sorted urls)` pair
per order-list name found in the channel map. -/
def serializeGroupRecords (acc : GroupAcc) : List (Str × List Str) :=
  acc.orderList.filterMap
    (fun n => (lookupA acc.channels n).map (fun d => (d.info, sortUrls d.urls)))

/-- The output lines of `m3u_merger.py`: optional header, then every group
in first-appearance order, each record as its info line followed by its
lexicographically sorted URLs. -/
def serializeMerger (st : MergerState) : List Str :=
  (if st.header = [] then [] else [st.header]) ++
    st.groupOrder.flatMap
      (fun g =>
        match lookupA st.groups g with
        | some acc => (serializeGroupRecords acc).flatMap (fun r => r.1 :: r.2)
        | none => [])

/-- The `m3u_merger.py` run after validation: any unreadable source aborts
the run before output is written (`none`); otherwise the merged playlist is
written. -/
def mergerRunWrites (reads : List (Option (List Str))) : Option (List Str) :=
  if reads.any (fun r => r.isNone) then none
  else some (serializeMerger (mergeAll (reads.filterMap id)))

/-! ## scripts/m3u_mergerng.py -/

/-- `get_norm_key(name)`: remove hyphens, then drop one trailing `'台'`,
strip, upper-case (Python `str.upper` modelled char-wise). -/
def get_norm_key (name : Str) : Str :=
  if name = [] then []
  else
    (stripBoth
      (if (name.filter (fun c => c ≠ '-')).getLast? = some '台' then
        (name.filter (fun c => c ≠ '-')).dropLast
      else name.filter (fun c => c ≠ '-'))).map Char.toUpper

/-- `is_preferred(name)`: the name contains a hyphen or ends with `'台'`. -/
def is_preferred (name : Str) : Bool :=
  decide ('-' ∈ name) || decide (name.getLast? = some '台')

/-- Numeric value of a digit run (`int` of the captured group). -/
def digitsVal (ds : Str) : Nat :=
  ds.foldl (fun n c => n * 10 + (c.toNat - 48)) 0

/-- One attempt of `re.search(r'(?i)CCTV-?(\d+)', name)` at the head of the
text: case-insensitive `CCTV`, at most one hyphen, then a maximal non-empty
digit run. -/
def cctvAt (l : Str) : Option Nat :=
  match l with
  | c1 :: c2 :: c3 :: c4 :: rest =>
    if c1.toLower = 'c' && c2.toLower = 'c' && c3.toLower = 't' && c4.toLower = 'v' then
      let r := match rest with
        | '-' :: r2 => r2
        | _ => rest
      let ds := r.takeWhile Char.isDigit
      if ds = [] then none else some (digitsVal ds)
    else none
  | _ => none

/-- The leftmost match of the CCTV-number pattern. -/
def findCCTV : Str → Option Nat
  | [] => none
  | l@(_ :: rest) =>
    match cctvAt l with
    | some n => some n
    | none => findCCTV rest

/-- `extract_cctv_num(name)`: the matched number, or the sentinel 999. -/
def extract_cctv_num (name : Str) : Nat := (findCCTV name).getD 999

/-- The channel-name extraction of `parse_m3u`
(`re.search(r',([^,]+)$', line)` then `.strip()`): the non-empty segment
after the last comma; a missing match or a name that strips to empty fails
the later truthiness checks, modelled as `none`. -/
def extractNameNg (l : Str) : Option Str :=
  if ',' ∈ l then
    let seg := (l.reverse.takeWhile (fun c => c ≠ ',')).reverse
    if seg = [] then none
    else
      let n := stripBoth seg
      if n = [] then none else some n
  else none

/-- The `original_group` extraction of `parse_m3u`: first
`group-title="..."` value (not stripped), defaulting to `"其他"`. -/
def ngOriginalGroup (info : Str) : Str :=
  match afterSub (str "group-title=\"") info with
  | some rest =>
    let val := rest.takeWhile (fun c => c ≠ '"')
    if val.length < rest.length then val else str "其他"
  | none => str "其他"

/-- One merged channel of `parse_m3u`. -/
structure NgChan where
  info : Str
  name : Str
  urls : List Str
  configs : List Str
  original_group : Str
  order_idx : Nat
deriving DecidableEq

/-- Parser state of `parse_m3u`. -/
structure NgState where
  header : Str
  chans : List (Str × NgChan)
  order : List Str
  curInfo : Option Str
  curName : Option Str
  curConfigs : List Str
  curUrls : List Str
deriving DecidableEq

/-- Key collision in `parse_m3u`: union the URL sets, concatenate the
configuration lines, and replace the display name and info line only when
the incoming name is a preferred form and the stored one is not. -/
def ngMergeExisting (old : NgChan) (info name : Str) (cfgs urls : List Str) : NgChan :=
  let upd := { old with urls := urlsUnion old.urls urls, configs := old.configs ++ cfgs }
  if is_preferred name && !is_preferred old.name then
    { upd with info := info, name := name }
  else upd

/-- Saving the in-progress channel of `parse_m3u` (performed when another
`#EXTINF:` line is reached and once at end of input). -/
def ngFlush (st : NgState) : NgState :=
  match st.curInfo, st.curName with
  | some info, some name =>
    let key := get_norm_key name
    match lookupA st.chans key with
    | none =>
      { st with
          chans := st.chans ++
            [(key,
              ⟨info, name, st.curUrls.foldl (fun a u => insertUniq u a) [],
               st.curConfigs, ngOriginalGroup info, st.order.length⟩)]
          order := st.order ++ [key] }
    | some old =>
      { st with chans := updateA st.chans key (ngMergeExisting old info name st.curConfigs st.curUrls) }
  | _, _ => st

/-- One line of the `parse_m3u` loop. -/
def ngStep (st : NgState) (l : Str) : NgState :=
  if isPre (str "#EXTM3U") l then { st with header := l }
  else if isPre (str "#EXTINF:") l then
    let st1 := ngFlush st
    { st1 with curInfo := some l, curName := extractNameNg l, curConfigs := [], curUrls := [] }
  else if isPre (str "#") l then { st with curConfigs := st.curConfigs ++ [l] }
  else if (isPre (str "http://") l || isPre (str "https://") l) && st.curName.isSome then
    { st with curUrls := st.curUrls ++ [l] }
  else st

/-- `parse_m3u`: strip every line (blank lines are kept and skipped by the
final branch), fold the line handler, save the last channel. -/
def parse_m3u (rawLines : List Str) : NgState :=
  ngFlush ((rawLines.map stripBoth).foldl ngStep ⟨str "#EXTM3U", [], [], none, none, [], []⟩)

/-- The channels in `channels.items()` order (Python dicts iterate in
insertion order, which is the `order` list). -/
def ngChannelsInOrder (st : NgState) : List NgChan :=
  st.order.filterMap (lookupA st.chans)

/-- Bucket classification of `main`: `"CCTV"` in the upper-cased name →
CCTV bucket; else `"卫视"` in the name → satellite bucket; else the
catch-all bucket. -/
def ngIsCCTV (c : NgChan) : Bool := isSub (str "CCTV") (c.name.map Char.toUpper)

def ngIsWeishi (c : NgChan) : Bool := isSub (str "卫视") c.name

/-- A record of the final output list: the channel with its assigned
`final_group`. -/
structure NgOut where
  chan : NgChan
  final_group : Str
deriving DecidableEq

/-- The CCTV bucket with `final_group = "央视"`, in map order. -/
def cctv_bucket (st : NgState) : List NgOut :=
  ((ngChannelsInOrder st).filter ngIsCCTV).map (fun c => ⟨c, str "央视"⟩)

/-- The satellite bucket with `final_group = "卫视"`, in map order. -/
def weishee_bucket (st : NgState) : List NgOut :=
  ((ngChannelsInOrder st).filter (fun c => !ngIsCCTV c && ngIsWeishi c)).map
    (fun c => ⟨c, str "卫视"⟩)

/-- The catch-all bucket keeping the original group, in map order. -/
def other_bucket (st : NgState) : List NgOut :=
  ((ngChannelsInOrder st).filter (fun c => !ngIsCCTV c && !ngIsWeishi c)).map
    (fun c => ⟨c, c.original_group⟩)

/-- The stable sort of the CCTV bucket by the extracted number. -/
def ngSortCCTV (l : List NgOut) : List NgOut :=
  insSort (fun a b => extract_cctv_num a.chan.name ≤ extract_cctv_num b.chan.name) l

/-- The stable sort of the satellite bucket by first-seen order. -/
def ngSortWeishee (l : List NgOut) : List NgOut :=
  insSort (fun a b => a.chan.order_idx ≤ b.chan.order_idx) l

/-- The stable sort of the catch-all bucket by (original group, first-seen
order), with Python tuple comparison. -/
def ngSortOther (l : List NgOut) : List NgOut :=
  insSort
    (fun a b =>
      if a.chan.original_group = b.chan.original_group then
        a.chan.order_idx ≤ b.chan.order_idx
      else strLe a.chan.original_group b.chan.original_group)
    l

/-- `final_list`: the three sorted buckets concatenated. -/
def ngFinalList (st : NgState) : List NgOut :=
  ngSortCCTV (cctv_bucket st) ++ ngSortWeishee (weishee_bucket st) ++
    ngSortOther (other_bucket st)

/-- Literal string replacement scanning left to right without overlap
(Python `str.replace` with a fixed non-empty pattern); fueled so that it
computes, with fuel equal to the text length (each step consumes at least
one character). -/
def replaceAllF (pat rep : Str) : Nat → Str → Str
  | 0, s => s
  | fuel + 1, s =>
    if pat = [] then s
    else if isPre pat s then rep ++ replaceAllF pat rep fuel (s.drop pat.length)
    else
      match s with
      | [] => []
      | c :: cs => c :: replaceAllF pat rep fuel cs

/-- `str.replace` with sufficient fuel. -/
def replaceAll (pat rep s : Str) : Str := replaceAllF pat rep s.length s

/-- `re.sub(r'group-title="[^"]*"', ...)`: rewrite every closed
`group-title="..."` attribute to the new group, scanning left to right
(fueled likewise). -/
def rewriteGTF (g : Str) : Nat → Str → Str
  | 0, s => s
  | _ + 1, [] => []
  | fuel + 1, c :: cs =>
    if isPre (str "group-title=\"") (c :: cs) then
      let rest := (c :: cs).drop (str "group-title=\"").length
      let val := rest.takeWhile (fun ch => ch ≠ '"')
      if val.length < rest.length then
        (str "group-title=\"" ++ g ++ ['"']) ++
          rewriteGTF g fuel (rest.drop (val.length + 1))
      else c :: rewriteGTF g fuel cs
    else c :: rewriteGTF g fuel cs

/-- The group-title rewrite with sufficient fuel. -/
def rewriteGT (g s : Str) : Str := rewriteGTF g s.length s

/-- The info-line rewrite of `safe_write_output`: replace the group-title
attribute with the final bucket name, or splice one in after `#EXTINF:`
when the attribute is absent. -/
def ngRewriteInfo (g info : Str) : Str :=
  if isSub (str "group-title=\"") info then rewriteGT g info
  else replaceAll (str "#EXTINF:") (str "#EXTINF: group-title=\"" ++ g ++ str "\",") info

/-- The output lines of one channel in `safe_write_output`: rewritten info
line, configuration lines unless `--no-config`, then the URL set in
lexicographically sorted order (the function takes no order-preserving
option; `--keep-order` is not passed to it). -/
def serializeNgChannel (noConfig : Bool) (item : NgOut) : List Str :=
  ngRewriteInfo item.final_group item.chan.info ::
    ((if noConfig then [] else item.chan.configs) ++ sortUrls item.chan.urls)

/-- The full output of `safe_write_output`. -/
def serializeNgOutput (noConfig : Bool) (header : Str) (finalList : List NgOut) :
    List Str :=
  header :: finalList.flatMap (serializeNgChannel noConfig)

/-- The `m3u_mergerng.py` run after validation: parse, classify, sort,
serialize.  The `--keep-order` flag is accepted but, as in `main`, never
reaches the writer. -/
def mergerngRun (rawLines : List Str) (noConfig keepOrder : Bool) : List Str :=
  let st := parse_m3u rawLines
  serializeNgOutput noConfig st.header (ngFinalList st)

/-! ## Claims -/

/-- C6: `safe_write_output` in `m3u_mergerng.py` always emits the URL set
in lexicographically sorted order; the `--keep-order` flag never reaches
the writer, so selecting it does not switch to first-seen order.  On a
channel whose URLs were first seen as `http://b` then `http://a` the output
is the sorted `a, b` order for every value of the flag, and the whole run
is independent of the flag. -/
theorem mergerng_urls_always_sorted :
    (∀ keepOrder : Bool,
      mergerngRun [str "#EXTINF:-1,Chan", str "http://b", str "http://a"] false keepOrder
        = [str "#EXTM3U", str "#EXTINF: group-title=\"其他\",-1,Chan",
           str "http://a", str "http://b"])
    ∧ (∀ (lines : List Str) (noConfig k1 k2 : Bool),
        mergerngRun lines noConfig k1 = mergerngRun lines noConfig k2) := by
  constructor
  · decide
  · intro lines nc k1 k2
    rfl

/-- C8: on a source whose read fails after validation (e.g. a UTF-8 decode
error), `extract.py` does not abort: `extract_keyword_lines` swallows the
exception and returns the empty list, and the main flow still writes an
(empty) output file.  `m3u_merger.py`, by contrast, aborts with no output
when any read fails. -/
theorem extract_writes_output_on_read_failure :
    (∀ args : MatchArgs, extractRunWrites none args = some [])
    ∧ (∀ srcs : List (List Str), mergerRunWrites (srcs.map some ++ [none]) = none) := by
  constructor
  · intro args
    rfl
  · intro srcs
    simp [mergerRunWrites]

/-! ## Helper lemmas -/

theorem lookupA_isSome_updateA {κ α : Type} [DecidableEq κ]
    (m : List (κ × α)) (k : κ) (v : α) (n : κ) :
    (lookupA (updateA m k v) n).isSome = (lookupA m n).isSome := by
  induction m with
  | nil => rfl
  | cons p rest ih =>
    obtain ⟨k', v'⟩ := p
    simp only [updateA]
    split
    · by_cases h2 : k' = n <;> simp [lookupA, h2]
    · by_cases h2 : k' = n <;> simp [lookupA, h2] <;> exact ih

theorem lookupA_isSome_append_single {κ α : Type} [DecidableEq κ]
    (m : List (κ × α)) (k : κ) (v : α) (n : κ) :
    (lookupA (m ++ [(k, v)]) n).isSome = true ↔
      ((lookupA m n).isSome = true ∨ n = k) := by
  induction m with
  | nil =>
    by_cases h : k = n
    · subst h
      simp [lookupA]
    · simp [lookupA, h, Ne.symm h]
  | cons p rest ih =>
    obtain ⟨k', v'⟩ := p
    by_cases h2 : k' = n <;> simp [lookupA, h2, ih]

/-- The parser invariant of `parse_single_m3u`: a key is in the channel map
iff it is in the order list. -/
def M1Inv (st : M1State) : Prop :=
  ∀ k, (lookupA st.chans k).isSome = true ↔ k ∈ st.order

theorem m1Step_inv (st : M1State) (l : Str) (h : M1Inv st) : M1Inv (m1Step st l) := by
  unfold m1Step
  repeat' split
  all_goals intro k
  all_goals try simp only [lookupA_isSome_updateA]
  all_goals try exact h k
  all_goals rw [lookupA_isSome_append_single]
  all_goals simp only [List.mem_append, List.mem_singleton]
  all_goals rw [h k]

theorem m1_foldl_inv (lines : List Str) (st : M1State) (h : M1Inv st) :
    M1Inv (lines.foldl m1Step st) := by
  induction lines generalizing st with
  | nil => exact h
  | cons l ls ih => exact ih _ (m1Step_inv st l h)

theorem parse_single_m3u_inv (rawLines : List Str) : M1Inv (parse_single_m3u rawLines) := by
  unfold parse_single_m3u
  apply m1_foldl_inv
  intro k
  simp [lookupA]

theorem ne_nil_of_isPre {p l : Str} (hp : p ≠ []) (h : isPre p l = true) : l ≠ [] := by
  cases p with
  | nil => exact absurd rfl hp
  | cons c cs =>
    cases l with
    | nil => simp [isPre] at h
    | cons x xs => simp

/-- Fuel irrelevance for the extract scan loop: any fuel at least the
number of lines gives the same result. -/
theorem extractLoopF_fuel (args : MatchArgs) :
    ∀ (f1 : Nat) (f2 : Nat) (seen : List (Str × Str)) (ls : List Str),
      ls.length ≤ f1 → ls.length ≤ f2 →
      extractLoopF args f1 seen ls = extractLoopF args f2 seen ls := by
  intro f1
  induction f1 with
  | zero =>
    intro f2 seen ls h1 _
    have : ls = [] := List.eq_nil_of_length_eq_zero (Nat.le_zero.mp h1)
    subst this
    cases f2 <;> rfl
  | succ f ih =>
    intro f2 seen ls h1 h2
    cases ls with
    | nil => cases f2 <;> rfl
    | cons l ls' =>
      cases f2 with
      | zero => simp at h2
      | succ f2' =>
        have hl1 : ls'.length ≤ f := by simpa using h1
        have hl2 : ls'.length ≤ f2' := by simpa using h2
        have hr1 : (probe ls').2.2.length ≤ f := le_trans (probe_rest_length ls') hl1
        have hr2 : (probe ls').2.2.length ≤ f2' := le_trans (probe_rest_length ls') hl2
        simp only [extractLoopF]
        split
        · cases hp : (probe ls').2.1 with
          | some url =>
            simp only [hp]
            repeat' split
            all_goals first
              | exact ih f2' _ _ hr1 hr2
              | rw [ih f2' _ _ hr1 hr2]
          | none =>
            simp only [hp]
            exact ih f2' _ _ hr1 hr2
        · split
          · rw [ih f2' seen ls' hl1 hl2]
          · exact ih f2' seen ls' hl1 hl2

/-- C1, counterexample: in `parse_single_m3u` a metadata line with no
following address line still creates an entry in the channel map and the
order list, and its info line appears in the serialized output. -/
theorem record_without_address_materializes_cex :
    (parse_single_m3u [str "#EXTINF:-1 group-title=\"News\",Chan"]).order
        = [(str "Chan", str "News")]
    ∧ lookupA (parse_single_m3u [str "#EXTINF:-1 group-title=\"News\",Chan"]).chans
        (str "Chan", str "News")
        = some ⟨str "#EXTINF:-1 group-title=\"News\",Chan", []⟩
    ∧ serializeMerger (mergeAll [[str "#EXTINF:-1 group-title=\"News\",Chan"]])
        = [str "#EXTINF:-1 group-title=\"News\",Chan"] := by
  decide

/-- C1 (amended): in `extract.py` a metadata line with no address before
the next metadata line or end of input contributes nothing (the scan
simply resumes); but both merger parsers materialize a record at the
metadata line itself.  In `parse_single_m3u` a well-formed metadata line
always puts its key into the order list, address or not (here placed at
end of input, so no address can follow); `parse_m3u` likewise registers a
trailing address-less metadata line with an empty URL set. -/
theorem record_materialization_amended :
    (∀ (pre : List Str) (m : Str) (n : Str),
      isPre (str "#EXTM3U") m = false →
      isPre (str "#EXTINF:") m = true →
      extractNameM1 m = some n →
      stripBoth m = m →
      (n, extract_group_title m) ∈ (parse_single_m3u (pre ++ [m])).order)
    ∧ (∀ (args : MatchArgs) (seen : List (Str × Str)) (m : Str) (ls : List Str),
        isPre (str "#EXTINF") m = true →
        (probe ls).2.1 = none →
        extractLoop args seen (m :: ls) = extractLoop args seen (probe ls).2.2)
    ∧ ((parse_m3u [str "#EXTINF:-1,X"]).order = [str "X"]
        ∧ lookupA (parse_m3u [str "#EXTINF:-1,X"]).chans (str "X")
            = some ⟨str "#EXTINF:-1,X", str "X", [], [], str "其他", 0⟩) := by
  refine ⟨?_, ?_, by decide⟩
  · intro pre m n h3u hinf hname hstrip
    have hmne : m ≠ [] := ne_nil_of_isPre (by decide) hinf
    have hmem : m.isEmpty = false := by
      cases m with
      | nil => exact absurd rfl hmne
      | cons c cs => rfl
    unfold parse_single_m3u
    rw [List.map_append, List.filter_append, List.foldl_append]
    simp only [List.map_cons, List.map_nil, hstrip, List.filter_cons, hmem,
      Bool.not_false, if_true, List.filter_nil]
    set st' := ((pre.map stripBoth).filter (fun l => !l.isEmpty)).foldl m1Step
      ⟨[], [], [], none⟩ with hst'def
    have hst' : M1Inv st' := m1_foldl_inv _ _ (by intro k; simp [lookupA])
    show (n, extract_group_title m) ∈ (m1Step st' m).order
    unfold m1Step
    rw [h3u, hinf, hname]
    simp only [Bool.false_eq_true, if_false, if_true]
    cases hlk : lookupA st'.chans (n, extract_group_title m) with
    | none => simp
    | some c =>
      simp only []
      exact (hst' _).mp (by rw [hlk]; rfl)
  · intro args seen m ls hinf hnone
    unfold extractLoop
    rw [List.length_cons]
    simp only [extractLoopF, hinf, hnone, if_true]
    exact extractLoopF_fuel args ls.length ((probe ls).2.2).length seen _
      (probe_rest_length ls) (le_refl _)

/-- C1, witness for the amended theorem at a concrete input. -/
theorem record_materialization_amended_witness :
    (str "Chan", str "News") ∈
      (parse_single_m3u
        ([str "#EXTM3U"] ++ [str "#EXTINF:-1 group-title=\"News\",Chan"])).order :=
  record_materialization_amended.1 [str "#EXTM3U"]
    (str "#EXTINF:-1 group-title=\"News\",Chan") (str "Chan")
    (by decide) (by decide) (by decide) (by decide)

theorem isPre_hash_of_extinf {l : Str} (h : isPre (str "#EXTINF") l = true) :
    isPre (str "#") l = true := by
  have e1 : str "#EXTINF" = '#' :: str "EXTINF" := by decide
  have e2 : str "#" = ['#'] := by decide
  rw [e1] at h
  rw [e2]
  cases l with
  | nil => simp [isPre] at h
  | cons c cs =>
    simp only [isPre, Bool.and_eq_true] at h ⊢
    exact ⟨h.1, trivial⟩

theorem probe_collects (cfgs : List Str) (url : Str) (rest : List Str)
    (hc : ∀ c ∈ cfgs, isPre (str "#") c = true ∧ isPre (str "#EXTINF") c = false)
    (hu : isPre (str "#") url = false) :
    probe (cfgs ++ url :: rest) = (cfgs, some url, rest) := by
  induction cfgs with
  | nil =>
    have hu2 : isPre (str "#EXTINF") url = false := by
      cases he : isPre (str "#EXTINF") url
      · rfl
      · exact absurd (isPre_hash_of_extinf he) (by simp [hu])
    simp [probe, hu, hu2]
  | cons c cs ih =>
    have h1 := hc c (by simp)
    simp only [List.cons_append, probe, h1.1, h1.2, Bool.false_eq_true, if_false,
      if_true]
    rw [List.append_eq, ih (fun x hx => hc x (by simp [hx]))]

theorem m1Step_resets (st : M1State) (l : Str)
    (h1 : isPre (str "#EXTM3U") l = false)
    (h2 : isPre (str "#EXTINF:") l = false)
    (h3 : isPre (str "http://") l = false)
    (h4 : isPre (str "https://") l = false) :
    (m1Step st l).cur = none := by
  unfold m1Step
  rw [h1, h2, h3, h4]
  simp

/-- C2, counterexample: in `parse_single_m3u` an intervening directive line
severs the record/address association — with `#EXTVLCOPT` between the
metadata line and the address, the record's URL set stays empty, while
without it the address is collected. -/
theorem record_directive_severs_cex :
    lookupA
        (parse_single_m3u
          [str "#EXTINF:-1,Chan", str "#EXTVLCOPT:opt", str "http://a"]).chans
        (str "Chan", []) = some ⟨str "#EXTINF:-1,Chan", []⟩
    ∧ (parse_single_m3u [str "#EXTINF:-1,Chan", str "http://a"]).chans
        = [((str "Chan", []), ⟨str "#EXTINF:-1,Chan", [str "http://a"]⟩)] := by
  decide

/-- C2 (amended): the description holds for `extract.py` (the probe
collects every `#`-line that is not a metadata line and takes the first
non-`#` line as the closing address) and for `m3u_mergerng.py` (directive
lines are collected and do not sever the following address); but
`parse_single_m3u` in `m3u_merger.py` collects no directive lines and
resets the in-progress record on any line that is not a header, metadata,
or `http(s)` URL line, so there an intervening directive severs the
association. -/
theorem record_directive_collection_amended :
    (∀ (cfgs : List Str) (url : Str) (rest : List Str),
      (∀ c ∈ cfgs, isPre (str "#") c = true ∧ isPre (str "#EXTINF") c = false) →
      isPre (str "#") url = false →
      probe (cfgs ++ url :: rest) = (cfgs, some url, rest))
    ∧ (∀ (st : M1State) (l : Str),
        isPre (str "#EXTM3U") l = false →
        isPre (str "#EXTINF:") l = false →
        isPre (str "http://") l = false →
        isPre (str "https://") l = false →
        (m1Step st l).cur = none)
    ∧ lookupA
        (parse_m3u [str "#EXTINF:-1,X", str "#EXTVLCOPT:o", str "http://a"]).chans
        (str "X")
        = some ⟨str "#EXTINF:-1,X", str "X", [str "http://a"], [str "#EXTVLCOPT:o"],
            str "其他", 0⟩ :=
  ⟨probe_collects, m1Step_resets, by decide⟩

/-- C2, witness for the amended theorem at a concrete input. -/
theorem record_directive_collection_amended_witness :
    probe ([str "#EXTVLCOPT:o"] ++ str "http://a" :: []) =
      ([str "#EXTVLCOPT:o"], some (str "http://a"), []) :=
  record_directive_collection_amended.1 [str "#EXTVLCOPT:o"] (str "http://a") []
    (by decide) (by decide)

/-- C4, counterexample: the names `X台` and `X台台` differ only in one
trailing suffix character `台`, yet normalize to different keys, so the
two records stay separate instead of merging into one. -/
theorem normalized_identity_cex :
    get_norm_key (str "X台") ≠ get_norm_key (str "X台台")
    ∧ (parse_m3u
        [str "#EXTINF:-1,X台", str "http://a",
         str "#EXTINF:-1,X台台", str "http://b"]).order
        = [str "X", str "X台"] := by
  decide

/-- C4 (amended): two variants whose hyphen-free spellings are `base` and
`base ++ 台` resolve to the same key provided `base` does not itself end
with `台` (when it does, as in `X台` vs `X台台`, the keys differ); and on a
key collision, when exactly one of the stored and incoming names is a
preferred form, the preferred name and its info line are kept, with the
URL union and configuration concatenation unaffected. -/
theorem normalized_identity_amended :
    (∀ (a b base : Str),
      (a.filter (fun c => c ≠ '-') = base ∨ a.filter (fun c => c ≠ '-') = base ++ ['台']) →
      (b.filter (fun c => c ≠ '-') = base ∨ b.filter (fun c => c ≠ '-') = base ++ ['台']) →
      base.getLast? ≠ some '台' →
      get_norm_key a = get_norm_key b)
    ∧ (∀ (old : NgChan) (info name : Str) (cfgs urls : List Str),
        is_preferred name = true → is_preferred old.name = false →
        (ngMergeExisting old info name cfgs urls).name = name
        ∧ (ngMergeExisting old info name cfgs urls).info = info
        ∧ (ngMergeExisting old info name cfgs urls).urls = urlsUnion old.urls urls
        ∧ (ngMergeExisting old info name cfgs urls).configs = old.configs ++ cfgs)
    ∧ (∀ (old : NgChan) (info name : Str) (cfgs urls : List Str),
        is_preferred name = false → is_preferred old.name = true →
        (ngMergeExisting old info name cfgs urls).name = old.name
        ∧ (ngMergeExisting old info name cfgs urls).info = old.info
        ∧ (ngMergeExisting old info name cfgs urls).urls = urlsUnion old.urls urls
        ∧ (ngMergeExisting old info name cfgs urls).configs = old.configs ++ cfgs) := by
  refine ⟨?_, ?_, ?_⟩
  · have keyBase : ∀ (x base : Str), x.filter (fun c => c ≠ '-') = base →
        base.getLast? ≠ some '台' →
        get_norm_key x = (stripBoth base).map Char.toUpper := by
      intro x base hx hlast
      unfold get_norm_key
      by_cases hxe : x = []
      · subst hxe
        simp only [List.filter_nil] at hx
        rw [if_pos rfl, ← hx]
        rfl
      · rw [if_neg hxe, hx, if_neg hlast]
    have keySuffix : ∀ (x base : Str), x.filter (fun c => c ≠ '-') = base ++ ['台'] →
        get_norm_key x = (stripBoth base).map Char.toUpper := by
      intro x base hx
      have hxe : x ≠ [] := by
        intro h
        rw [h] at hx
        simp at hx
      unfold get_norm_key
      rw [if_neg hxe, hx, if_pos (by simp), List.dropLast_concat]
    intro a b base ha hb hlast
    rcases ha with ha | ha
    · rcases hb with hb | hb
      · rw [keyBase a base ha hlast, keyBase b base hb hlast]
      · rw [keyBase a base ha hlast, keySuffix b base hb]
    · rcases hb with hb | hb
      · rw [keySuffix a base ha, keyBase b base hb hlast]
      · rw [keySuffix a base ha, keySuffix b base hb]
  · intro old info name cfgs urls h1 h2
    simp [ngMergeExisting, h1, h2]
  · intro old info name cfgs urls h1 h2
    simp [ngMergeExisting, h1, h2]

/-- C4, witness for the amended theorem at a concrete input. -/
theorem normalized_identity_amended_witness :
    get_norm_key (str "CCTV-5") = get_norm_key (str "CCTV5台") :=
  normalized_identity_amended.1 (str "CCTV-5") (str "CCTV5台") (str "CCTV5")
    (Or.inl (by decide)) (Or.inr (by decide)) (by decide)

theorem isPre_iff (p t : Str) : isPre p t = true ↔ ∃ v, t = p ++ v := by
  induction p generalizing t with
  | nil => simp [isPre]
  | cons a as ih =>
    cases t with
    | nil => simp [isPre]
    | cons b bs =>
      simp only [isPre, Bool.and_eq_true, decide_eq_true_eq, ih, List.cons_append,
        List.cons.injEq]
      constructor
      · rintro ⟨rfl, v, rfl⟩
        exact ⟨v, rfl, rfl⟩
      · rintro ⟨v, rfl, rfl⟩
        exact ⟨rfl, v, rfl⟩

/-- The substring relation (spec side of the matcher description). -/
def SubStr (p t : Str) : Prop := ∃ u v, t = u ++ p ++ v

theorem isSub_iff (p t : Str) : isSub p t = true ↔ SubStr p t := by
  induction t with
  | nil =>
    simp only [isSub, List.isEmpty_iff, SubStr]
    constructor
    · rintro rfl
      exact ⟨[], [], rfl⟩
    · rintro ⟨u, v, h⟩
      have hlen := congrArg List.length h
      simp at hlen
      exact List.eq_nil_of_length_eq_zero (by omega)
  | cons c ts ih =>
    simp only [isSub, Bool.or_eq_true, isPre_iff, ih, SubStr]
    constructor
    · rintro (⟨v, hv⟩ | ⟨u, v, hv⟩)
      · exact ⟨[], v, hv⟩
      · exact ⟨c :: u, v, by rw [hv]; rfl⟩
    · rintro ⟨u, v, h⟩
      cases u with
      | nil =>
        left
        exact ⟨v, by simpa using h⟩
      | cons x u' =>
        right
        simp only [List.cons_append] at h
        injection h with h1 h2
        exact ⟨u', v, h2⟩

/-- The non-empty stripped sub-terms of a compound keyword expression. -/
def matcherTerms (c : Char) (p : Str) : List Str :=
  ((splitOn2 c p).map stripBoth).filter (fun k => !k.isEmpty)

/-- Modelled from the spec's matcher description (§4.2), amended: a keyword
matches when it is non-empty and non-blank and, after quote stripping,
either every non-empty `&&` sub-term is a substring (vacuously true when
none remain), or some non-empty `||` sub-term is a substring, or the whole
processed expression is a substring (the empty processed expression matches
everything). -/
def MatcherSpec (text kw : Str) : Prop :=
  kw ≠ [] ∧ stripBoth kw ≠ [] ∧
  (if isSub (str "&&") (stripChar '"' (stripBoth kw)) = true then
    ∀ k ∈ matcherTerms '&' (stripChar '"' (stripBoth kw)), SubStr k text
  else if isSub (str "||") (stripChar '"' (stripBoth kw)) = true then
    ∃ k ∈ matcherTerms '|' (stripChar '"' (stripBoth kw)), SubStr k text
  else SubStr (stripChar '"' (stripBoth kw)) text)

theorem check_match_iff (text kw : Str) :
    check_match text kw = true ↔ MatcherSpec text kw := by
  unfold check_match MatcherSpec
  by_cases h0 : kw = [] ∨ stripBoth kw = []
  · rw [if_pos h0]
    constructor
    · intro hh
      exact absurd hh (by simp)
    · rintro ⟨h1, h2, _⟩
      rcases h0 with h0 | h0 <;> contradiction
  · push_neg at h0
    rw [if_neg (by tauto)]
    by_cases hAmp : isSub (str "&&") (stripChar '"' (stripBoth kw)) = true
    · rw [if_pos hAmp, if_pos hAmp, List.all_eq_true]
      constructor
      · intro hall
        exact ⟨h0.1, h0.2, fun k hk => (isSub_iff k text).mp (hall k hk)⟩
      · rintro ⟨_, _, hall⟩ k hk
        exact (isSub_iff k text).mpr (hall k hk)
    · rw [if_neg hAmp, if_neg hAmp]
      by_cases hBar : isSub (str "||") (stripChar '"' (stripBoth kw)) = true
      · rw [if_pos hBar, if_pos hBar, List.any_eq_true]
        constructor
        · rintro ⟨k, hk, hsub⟩
          exact ⟨h0.1, h0.2, k, hk, (isSub_iff k text).mp hsub⟩
        · rintro ⟨_, _, k, hk, hsub⟩
          exact ⟨k, hk, (isSub_iff k text).mpr hsub⟩
      · rw [if_neg hBar, if_neg hBar]
        constructor
        · intro hsub
          exact ⟨h0.1, h0.2, (isSub_iff _ text).mp hsub⟩
        · rintro ⟨_, _, hsub⟩
          exact (isSub_iff _ text).mpr hsub

/-- C5, counterexample: the expression `"&&"` consists of empty sub-terms
only, and the expression `'""'` is empty once quotes are stripped; the
claim says neither ever matches, yet both match any record text. -/
theorem matcher_empty_subterm_cex :
    check_match (str "anything") (str "&&") = true
    ∧ check_match (str "x") (str "\"\"") = true := by
  decide

/-- C5 (amended): the AND pair matches iff both field predicates hold and
the OR pair iff either does; an expression that is empty or blank before
quote stripping never matches; and the single-keyword semantics is exactly
`MatcherSpec`: conjunction over the non-empty `&&` sub-terms (vacuous —
matching everything — when all sub-terms are empty), else disjunction over
the non-empty `||` sub-terms, else a plain substring test, where an
expression emptied by quote stripping alone is the trivial substring test
that matches every record. -/
theorem matcher_semantics_amended :
    (∀ (extinf url a b : Str) (rm nc : Bool),
      computeMatched ⟨some (a, b), none, rm, nc⟩ extinf url = true ↔
        MatcherSpec extinf a ∧ MatcherSpec url b)
    ∧ (∀ (extinf url a b : Str) (rm nc : Bool),
        computeMatched ⟨none, some (a, b), rm, nc⟩ extinf url = true ↔
          MatcherSpec extinf a ∨ MatcherSpec url b)
    ∧ (∀ text kw, stripBoth kw = [] → check_match text kw = false)
    ∧ (∀ text kw, check_match text kw = true ↔ MatcherSpec text kw) := by
  refine ⟨?_, ?_, ?_, check_match_iff⟩
  · intro extinf url a b rm nc
    simp only [computeMatched, Bool.and_eq_true, check_match_iff]
  · intro extinf url a b rm nc
    simp only [computeMatched, Bool.or_eq_true, check_match_iff]
  · intro text kw h
    unfold check_match
    rw [if_pos (Or.inr h)]

/-- C5, witness for the amended theorem at a concrete input. -/
theorem matcher_semantics_amended_witness :
    check_match (str "abc") (str "   ") = false :=
  matcher_semantics_amended.2.2.1 (str "abc") (str "   ") (by decide)

theorem mem_ordInsert {α : Type} (le : α → α → Bool) (a x : α) (l : List α) :
    x ∈ ordInsert le a l ↔ x = a ∨ x ∈ l := by
  induction l with
  | nil => simp [ordInsert]
  | cons b bs ih =>
    simp only [ordInsert]
    split
    · simp [List.mem_cons]
      try tauto
    · simp [List.mem_cons, ih]
      try tauto

theorem ordInsert_perm {α : Type} (le : α → α → Bool) (a : α) (l : List α) :
    (ordInsert le a l).Perm (a :: l) := by
  induction l with
  | nil => exact List.Perm.refl _
  | cons b bs ih =>
    simp only [ordInsert]
    split
    · exact List.Perm.refl _
    · exact (ih.cons b).trans (List.Perm.swap a b bs)

theorem insSort_perm {α : Type} (le : α → α → Bool) (l : List α) :
    (insSort le l).Perm l := by
  induction l with
  | nil => exact List.Perm.refl _
  | cons a l ih =>
    exact (ordInsert_perm le a (insSort le l)).trans (ih.cons a)

theorem ordInsert_pairwise_key {α : Type} (f : α → Nat) (a : α) (l : List α)
    (h : List.Pairwise (fun x y => f x ≤ f y) l) :
    List.Pairwise (fun x y => f x ≤ f y)
      (ordInsert (fun x y => decide (f x ≤ f y)) a l) := by
  induction l with
  | nil => simp [ordInsert]
  | cons b bs ih =>
    rw [List.pairwise_cons] at h
    obtain ⟨hb, hbs⟩ := h
    simp only [ordInsert]
    split
    · rename_i hab
      rw [decide_eq_true_eq] at hab
      refine List.Pairwise.cons ?_ (List.Pairwise.cons hb hbs)
      intro y hy
      rcases List.mem_cons.mp hy with rfl | hy
      · exact hab
      · exact le_trans hab (hb y hy)
    · rename_i hab
      rw [decide_eq_true_eq] at hab
      refine List.Pairwise.cons ?_ (ih hbs)
      intro y hy
      rcases (mem_ordInsert _ _ _ _).mp hy with rfl | hy
      · omega
      · exact hb y hy

theorem insSort_pairwise_key {α : Type} (f : α → Nat) (l : List α) :
    List.Pairwise (fun x y => f x ≤ f y)
      (insSort (fun x y => decide (f x ≤ f y)) l) := by
  induction l with
  | nil => simp [insSort]
  | cons a l ih => exact ordInsert_pairwise_key f a _ ih

/-- C7, counterexample: a CCTV-bucket record with no extractable number
(`CCTV测试`, sentinel 999) sorts *before* the numbered record `CCTV1000`
(extracted number 1000), so an unnumbered record does not sort after all
numbered entries. -/
theorem cctv_sentinel_cex :
    extract_cctv_num (str "CCTV测试") = 999
    ∧ extract_cctv_num (str "CCTV1000") = 1000
    ∧ (ngFinalList (parse_m3u
        [str "#EXTINF:-1,CCTV测试", str "http://t",
         str "#EXTINF:-1,CCTV1000", str "http://u"])).map (fun o => o.chan.name)
        = [str "CCTV测试", str "CCTV1000"] := by
  decide

/-- C7 (amended): the CCTV bucket is ordered (stably) by the number
extracted from the case-insensitive `CCTV`-optional-hyphen-digits pattern
(so marker+"-5" sorts before marker+"13"), and a record with no extractable
number gets the sentinel 999, which places it after every entry whose
extracted number is below 999 — but not after entries whose extracted
number is 999 or larger. -/
theorem cctv_bucket_order_amended :
    (∀ l : List NgOut,
      List.Pairwise
        (fun a b => extract_cctv_num a.chan.name ≤ extract_cctv_num b.chan.name)
        (ngSortCCTV l))
    ∧ (∀ l : List NgOut, (ngSortCCTV l).Perm l)
    ∧ extract_cctv_num (str "CCTV-5") = 5
    ∧ extract_cctv_num (str "CCTV13") = 13
    ∧ (ngSortCCTV
        [⟨⟨str "#EXTINF:-1,CCTV13", str "CCTV13", [], [], str "其他", 0⟩, str "央视"⟩,
         ⟨⟨str "#EXTINF:-1,CCTV-5", str "CCTV-5", [], [], str "其他", 1⟩, str "央视"⟩]).map
        (fun o => o.chan.name) = [str "CCTV-5", str "CCTV13"] := by
  refine ⟨?_, ?_, by decide, by decide, by decide⟩
  · intro l
    exact insSort_pairwise_key (fun o => extract_cctv_num o.chan.name) l
  · intro l
    exact insSort_perm _ l

/-- The `(metadata, address)` key of an output block (none for a
passthrough line). -/
def blockKey : Block → Option (Str × Str)
  | .record e _ u => some (e, u)
  | .passthrough _ => none

/-- The record keys of the output blocks, in output order. -/
def recordKeys (bs : List Block) : List (Str × Str) := bs.filterMap blockKey

/-- The keys of the complete records kept by the match/polarity decision,
in scan order, before deduplication. -/
def keptKeys (args : MatchArgs) (ls : List Str) : List (Str × Str) :=
  ((scanRecords ls).filter (keepB args)).map (fun r => (r.1, r.2.2))

/-- First-occurrence deduplication relative to an already-seen set. -/
def firstDedupFrom {α : Type} [DecidableEq α] (seen : List α) : List α → List α
  | [] => []
  | x :: xs =>
    if x ∈ seen then firstDedupFrom seen xs
    else x :: firstDedupFrom (x :: seen) xs

theorem keepB_eq (args : MatchArgs) (e : Str) (c : List Str) (u : Str) :
    keepB args (e, c, u) =
      if args.remove then !(computeMatched args e u) else computeMatched args e u := rfl

theorem extract_dedup_aux (args : MatchArgs) :
    ∀ (fuel : Nat) (seen : List (Str × Str)) (ls : List Str),
      recordKeys (extractLoopF args fuel seen ls) =
        firstDedupFrom seen
          (((scanRecordsF fuel ls).filter (keepB args)).map (fun r => (r.1, r.2.2))) := by
  intro fuel
  induction fuel with
  | zero =>
    intro seen ls
    rfl
  | succ f ih =>
    intro seen ls
    cases ls with
    | nil => rfl
    | cons l ls' =>
      simp only [extractLoopF, scanRecordsF]
      by_cases hx : isPre (str "#EXTINF") l = true
      · rw [if_pos hx, if_pos hx]
        cases hp : (probe ls').2.1 with
        | none =>
          simp only [hp]
          exact ih seen (probe ls').2.2
        | some url =>
          simp only [hp]
          by_cases hk :
              (if args.remove then !(computeMatched args l url)
               else computeMatched args l url) = true
          · have hkb : keepB args (l, (probe ls').1, url) = true := by
              rw [keepB_eq]
              exact hk
            rw [if_pos hk, List.filter_cons, if_pos hkb]
            simp only [List.map_cons, firstDedupFrom]
            by_cases hm : (l, url) ∈ seen
            · rw [if_pos hm, if_pos hm]
              exact ih seen (probe ls').2.2
            · rw [if_neg hm, if_neg hm]
              simp only [recordKeys, List.filterMap_cons, blockKey]
              rw [← recordKeys, ih ((l, url) :: seen) (probe ls').2.2]
          · have hkb : ¬keepB args (l, (probe ls').1, url) = true := by
              rw [keepB_eq]
              exact hk
            rw [if_neg hk, List.filter_cons, if_neg hkb]
            exact ih seen (probe ls').2.2
      · rw [if_neg hx, if_neg hx]
        by_cases hr : args.remove = true
        · rw [if_pos hr]
          simp only [recordKeys, List.filterMap_cons, blockKey]
          exact ih seen ls'
        · rw [if_neg hr]
          exact ih seen ls'

theorem mem_firstDedupFrom {α : Type} [DecidableEq α] :
    ∀ (l : List α) (seen : List α) (x : α), x ∈ firstDedupFrom seen l → x ∉ seen := by
  intro l
  induction l with
  | nil =>
    intro seen x hx
    simp [firstDedupFrom] at hx
  | cons y ys ih =>
    intro seen x hx
    simp only [firstDedupFrom] at hx
    split at hx
    · exact ih seen x hx
    · rcases List.mem_cons.mp hx with rfl | hx
      · assumption
      · intro hs
        exact ih (y :: seen) x hx (List.mem_cons_of_mem y hs)

theorem firstDedupFrom_nodup {α : Type} [DecidableEq α] :
    ∀ (l : List α) (seen : List α), (firstDedupFrom seen l).Nodup := by
  intro l
  induction l with
  | nil =>
    intro seen
    simp [firstDedupFrom]
  | cons y ys ih =>
    intro seen
    simp only [firstDedupFrom]
    split
    · exact ih seen
    · refine List.Nodup.cons ?_ (ih (y :: seen))
      intro hy
      exact mem_firstDedupFrom ys (y :: seen) y hy (List.mem_cons_self y seen)

/-- C10: the filter deduplicates output records by the exact
`(metadata, address)` pair, in both polarities: the sequence of record
keys in the output equals the first-occurrence deduplication of the kept
records' keys (so each pair appears at most once, at the position of its
first kept occurrence). -/
theorem extract_dedup_by_pair :
    (∀ (args : MatchArgs) (ls : List Str),
      recordKeys (extractLoop args [] ls) = firstDedupFrom [] (keptKeys args ls))
    ∧ (∀ (args : MatchArgs) (ls : List Str), (recordKeys (extractLoop args [] ls)).Nodup) := by
  constructor
  · intro args ls
    exact extract_dedup_aux args ls.length [] ls
  · intro args ls
    unfold extractLoop
    rw [extract_dedup_aux args ls.length [] ls]
    exact firstDedupFrom_nodup _ []

/-- The accumulator invariant of one merger group bucket: the order list is
duplicate-free and lists exactly the keys of the channel map. -/
def GroupInv (acc : GroupAcc) : Prop :=
  acc.orderList.Nodup ∧
    ∀ n, (lookupA acc.channels n).isSome = true ↔ n ∈ acc.orderList

theorem mem_pyInsert {α : Type} (x a : α) :
    ∀ (l : List α) (i : Nat), x ∈ pyInsert l i a ↔ x = a ∨ x ∈ l := by
  intro l
  induction l with
  | nil =>
    intro i
    cases i <;> simp [pyInsert]
  | cons y ys ih =>
    intro i
    cases i with
    | zero => simp [pyInsert]
    | succ j =>
      simp [pyInsert, ih, List.mem_cons]
      tauto

theorem nodup_pyInsert {α : Type} {a : α} {l : List α} (ha : a ∉ l) (h : l.Nodup) :
    ∀ i, (pyInsert l i a).Nodup := by
  induction l with
  | nil =>
    intro i
    cases i <;> simp [pyInsert]
  | cons y ys ih =>
    intro i
    cases i with
    | zero =>
      exact List.Nodup.cons (by simpa using ha) h
    | succ j =>
      rw [List.nodup_cons] at h
      refine List.Nodup.cons ?_ (ih (fun hm => ha (List.mem_cons_of_mem y hm)) h.2 j)
      intro hy
      rcases (mem_pyInsert y a ys j).mp hy with rfl | hy
      · exact ha (List.mem_cons_self y ys)
      · exact h.1 hy

theorem groupStep_inv (acc : GroupAcc) (lk : Int) (item : Str × M1Chan)
    (h : GroupInv acc) : GroupInv (groupStep (acc, lk) item).1 := by
  obtain ⟨name, data⟩ := item
  unfold groupStep
  cases hlk : lookupA acc.channels name with
  | some c =>
    simp only [hlk]
    refine ⟨h.1, ?_⟩
    intro n
    rw [lookupA_isSome_updateA]
    exact h.2 n
  | none =>
    simp only [hlk]
    have hname : name ∉ acc.orderList := by
      intro hm
      have := (h.2 name).mpr hm
      rw [hlk] at this
      simp at this
    refine ⟨nodup_pyInsert hname h.1 _, ?_⟩
    intro n
    rw [lookupA_isSome_append_single, mem_pyInsert, h.2 n]
    tauto

theorem groupPass_fold_inv (items : List (Str × M1Chan)) :
    ∀ (p : GroupAcc × Int), GroupInv p.1 → GroupInv (items.foldl groupStep p).1 := by
  induction items with
  | nil =>
    intro p h
    exact h
  | cons item rest ih =>
    intro p h
    exact ih (groupStep p item) (groupStep_inv p.1 p.2 item h)

theorem groupPass_inv (init : GroupAcc) (items : List (Str × M1Chan))
    (h : GroupInv init) : GroupInv (groupPass init items).1 :=
  groupPass_fold_inv items (init, -1) h

/-- The merger-state invariant: every group bucket satisfies `GroupInv`. -/
def MInv (st : MergerState) : Prop :=
  ∀ g acc, lookupA st.groups g = some acc → GroupInv acc

theorem lookupA_append {κ α : Type} [DecidableEq κ]
    (m1 m2 : List (κ × α)) (n : κ) :
    lookupA (m1 ++ m2) n = (lookupA m1 n).or (lookupA m2 n) := by
  induction m1 with
  | nil => rfl
  | cons p rest ih =>
    obtain ⟨k, v⟩ := p
    by_cases h : k = n <;> simp [lookupA, h, ih]

theorem lookupA_updateA_of_ne {κ α : Type} [DecidableEq κ]
    (m : List (κ × α)) (k : κ) (v : α) (n : κ) (hne : k ≠ n) :
    lookupA (updateA m k v) n = lookupA m n := by
  induction m with
  | nil => rfl
  | cons p rest ih =>
    obtain ⟨k', v'⟩ := p
    by_cases h : k' = k <;> by_cases h2 : k' = n <;>
      simp_all [updateA, lookupA]

theorem lookupA_updateA_self {κ α : Type} [DecidableEq κ]
    (m : List (κ × α)) (k : κ) (v : α) {c : α} (hc : lookupA m k = some c) :
    lookupA (updateA m k v) k = some v := by
  induction m with
  | nil => simp [lookupA] at hc
  | cons p rest ih =>
    obtain ⟨k', v'⟩ := p
    by_cases h : k' = k <;> simp_all [updateA, lookupA]

theorem processGroup_inv (st : MergerState) (g : Str) (items : List (Str × M1Chan))
    (h : MInv st) : MInv (processGroup st g items) := by
  unfold processGroup
  cases hg : lookupA st.groups g with
  | some acc0 =>
    simp only [hg]
    intro g' acc' hl
    by_cases he : g = g'
    · subst he
      rw [lookupA_updateA_self st.groups g _ hg] at hl
      obtain rfl : (groupPass acc0 items).1 = acc' := by
        injection hl
      exact groupPass_inv acc0 items (h g acc0 hg)
    · rw [lookupA_updateA_of_ne st.groups g _ g' he] at hl
      exact h g' acc' hl
  | none =>
    simp only [hg]
    have hg1 : lookupA (st.groups ++ [(g, (⟨[], []⟩ : GroupAcc))]) g
        = some (⟨[], []⟩ : GroupAcc) := by
      rw [lookupA_append, hg]
      simp [lookupA]
    simp only [hg1]
    intro g' acc' hl
    by_cases he : g = g'
    · subst he
      rw [lookupA_updateA_self _ g _ hg1] at hl
      obtain rfl : (groupPass ⟨[], []⟩ items).1 = acc' := by
        injection hl
      refine groupPass_inv _ items ?_
      constructor
      · exact List.nodup_nil
      · intro n
        simp [lookupA]
    · rw [lookupA_updateA_of_ne _ g _ g' he, lookupA_append] at hl
      have h2 : lookupA [(g, (⟨[], []⟩ : GroupAcc))] g' = none := by
        simp [lookupA, he]
      rw [h2, Option.or_none] at hl
      exact h g' acc' hl

theorem foldl_processGroup_inv (gs : List (Str × List (Str × M1Chan))) :
    ∀ st1, MInv st1 → MInv (gs.foldl (fun s gi => processGroup s gi.1 gi.2) st1) := by
  induction gs with
  | nil =>
    intro st1 h
    exact h
  | cons gi rest ih =>
    intro st1 h
    exact ih _ (processGroup_inv st1 gi.1 gi.2 h)

theorem processSource_inv (st : MergerState) (src : List Str) (h : MInv st) :
    MInv (processSource st src) := by
  unfold processSource
  apply foldl_processGroup_inv
  split <;> exact h

theorem mergeAll_inv (sources : List (List Str)) : MInv (mergeAll sources) := by
  unfold mergeAll
  have h0 : MInv (⟨[], [], []⟩ : MergerState) := by
    intro g acc hl
    simp [lookupA] at hl
  generalize hst : (⟨[], [], []⟩ : MergerState) = st0
  rw [hst] at h0
  clear hst
  induction sources generalizing st0 with
  | nil => exact h0
  | cons src rest ih =>
    exact ih (processSource st0 src) (processSource_inv st0 src h0)

theorem filterMap_length_of_isSome {α β : Type} (F : α → Option β) :
    ∀ (l : List α), (∀ n ∈ l, (F n).isSome = true) →
      (l.filterMap F).length = l.length := by
  intro l
  induction l with
  | nil => simp
  | cons x xs ih =>
    intro h
    have hx := h x (List.mem_cons_self x xs)
    obtain ⟨b, hb⟩ := Option.isSome_iff_exists.mp hx
    rw [List.filterMap_cons, hb]
    simp only [List.length_cons]
    rw [ih (fun n hn => h n (List.mem_cons_of_mem x hn))]

/-- C9: the exact-policy merge accumulator invariant — after processing any
prefix of the input sources, every group bucket's order list is
duplicate-free and lists exactly the keys of its channel map; each
per-record merge step preserves the invariant; and under it, serialization
emits exactly one record per order-list entry, i.e. each merged channel
exactly once. -/
theorem merger_accumulator_invariant :
    (∀ (acc : GroupAcc) (lk : Int) (item : Str × M1Chan),
      GroupInv acc → GroupInv (groupStep (acc, lk) item).1)
    ∧ (∀ (sources : List (List Str)) (g : Str) (acc : GroupAcc),
        lookupA (mergeAll sources).groups g = some acc →
        GroupInv acc ∧ (serializeGroupRecords acc).length = acc.orderList.length) := by
  constructor
  · exact groupStep_inv
  · intro sources g acc hl
    have hinv := mergeAll_inv sources g acc hl
    refine ⟨hinv, ?_⟩
    unfold serializeGroupRecords
    exact filterMap_length_of_isSome _ acc.orderList
      (fun n hn => by
        obtain ⟨c, hc⟩ := Option.isSome_iff_exists.mp ((hinv.2 n).mpr hn)
        rw [hc]
        rfl)

/-- C9, witness for the invariant theorem at a concrete merged source. -/
theorem merger_accumulator_invariant_witness :
    ([str "A"] : List Str).Nodup ∧
      (serializeGroupRecords
        ⟨[(str "A", ⟨str "#EXTINF:-1 group-title=\"G\",A", [str "http://a"]⟩)],
         [str "A"]⟩).length = 1 := by
  have h := merger_accumulator_invariant.2
    [[str "#EXTINF:-1 group-title=\"G\",A", str "http://a"]] (str "G")
    ⟨[(str "A", ⟨str "#EXTINF:-1 group-title=\"G\",A", [str "http://a"]⟩)], [str "A"]⟩
    (by decide)
  exact ⟨h.1.1, h.2⟩

theorem idxOf_lt_length {α : Type} [DecidableEq α] {x : α} :
    ∀ {l : List α}, x ∈ l → idxOf x l < l.length := by
  intro l
  induction l with
  | nil =>
    intro h
    simp at h
  | cons a as ih =>
    intro h
    simp only [idxOf, List.length_cons]
    split
    · omega
    · rename_i hne
      rcases List.mem_cons.mp h with rfl | h2
      · exact absurd rfl hne
      · have := ih h2
        omega

theorem idxOf_pyInsert_self {α : Type} [DecidableEq α] {a : α} :
    ∀ (l : List α) (i : Nat), a ∉ l → idxOf a (pyInsert l i a) = min i l.length := by
  intro l
  induction l with
  | nil =>
    intro i _
    cases i <;> simp [pyInsert, idxOf]
  | cons y ys ih =>
    intro i ha
    cases i with
    | zero => simp [pyInsert, idxOf]
    | succ j =>
      have hya : y ≠ a := fun h => ha (h ▸ List.mem_cons_self y ys)
      simp only [pyInsert, idxOf, if_neg hya, List.length_cons]
      rw [ih j (fun h => ha (List.mem_cons_of_mem y h))]
      omega

theorem idxOf_pyInsert_of_lt {α : Type} [DecidableEq α] {x a : α} (hax : a ≠ x) :
    ∀ (l : List α) (i : Nat), x ∈ l → idxOf x l < i →
      idxOf x (pyInsert l i a) = idxOf x l := by
  intro l
  induction l with
  | nil =>
    intro i h
    simp at h
  | cons y ys ih =>
    intro i hmem hlt
    cases i with
    | zero => omega
    | succ j =>
      by_cases hyx : y = x
      · simp [pyInsert, idxOf, hyx]
      · simp only [idxOf, if_neg hyx] at hlt
        simp only [pyInsert, idxOf, if_neg hyx]
        rw [ih j (by rcases List.mem_cons.mp hmem with rfl | hm
                     · exact absurd rfl hyx
                     · exact hm) (by omega)]

theorem idxOf_pyInsert_of_ge {α : Type} [DecidableEq α] {x a : α} (hax : a ≠ x) :
    ∀ (l : List α) (i : Nat), x ∈ l → i ≤ idxOf x l →
      idxOf x (pyInsert l i a) = idxOf x l + 1 := by
  intro l
  induction l with
  | nil =>
    intro i h
    simp at h
  | cons y ys ih =>
    intro i hmem hge
    cases i with
    | zero =>
      simp [pyInsert, idxOf, if_neg hax]
    | succ j =>
      by_cases hyx : y = x
      · simp only [idxOf, if_pos hyx] at hge
        omega
      · simp only [idxOf, if_neg hyx] at hge
        simp only [pyInsert, idxOf, if_neg hyx]
        rw [ih j (by rcases List.mem_cons.mp hmem with rfl | hm
                     · exact absurd rfl hyx
                     · exact hm) (by omega)]

theorem before_pyInsert {α : Type} [DecidableEq α] {x y a : α} (l : List α) (i : Nat)
    (hax : a ≠ x) (hay : a ≠ y) (hx : x ∈ l) (hy : y ∈ l)
    (h : idxOf x l < idxOf y l) :
    idxOf x (pyInsert l i a) < idxOf y (pyInsert l i a) := by
  by_cases hyi : idxOf y l < i
  · rw [idxOf_pyInsert_of_lt hax l i hx (lt_trans h hyi),
      idxOf_pyInsert_of_lt hay l i hy hyi]
    exact h
  · push_neg at hyi
    rw [idxOf_pyInsert_of_ge hay l i hy hyi]
    by_cases hxi : idxOf x l < i
    · rw [idxOf_pyInsert_of_lt hax l i hx hxi]
      omega
    · push_neg at hxi
      rw [idxOf_pyInsert_of_ge hax l i hx hxi]
      omega

theorem groupStep_insert (acc : GroupAcc) (lk : Int) (item : Str × M1Chan)
    (hnone : lookupA acc.channels item.1 = none) :
    groupStep (acc, lk) item =
      (⟨acc.channels ++ [(item.1, item.2)],
        pyInsert acc.orderList (lk + 1).toNat item.1⟩, ((lk + 1).toNat : Int)) := by
  obtain ⟨name, data⟩ := item
  unfold groupStep
  simp [hnone]

theorem groupStep_match_orderList (acc : GroupAcc) (lk : Int) (item : Str × M1Chan)
    {c : M1Chan} (hsome : lookupA acc.channels item.1 = some c) :
    ((groupStep (acc, lk) item).1).orderList = acc.orderList := by
  obtain ⟨name, data⟩ := item
  unfold groupStep
  simp [hsome]

theorem groupStep_orderList_subset (p : GroupAcc × Int) (item : Str × M1Chan) (x : Str) :
    x ∈ ((groupStep p item).1).orderList → x = item.1 ∨ x ∈ p.1.orderList := by
  obtain ⟨acc, lk⟩ := p
  obtain ⟨name, data⟩ := item
  unfold groupStep
  cases hlk : lookupA acc.channels name with
  | some c =>
    simp only [hlk]
    intro h
    exact Or.inr h
  | none =>
    simp only [hlk]
    intro h
    exact (mem_pyInsert x name acc.orderList _).mp h

theorem foldl_orderList_subset (items : List (Str × M1Chan)) :
    ∀ (p : GroupAcc × Int) (x : Str),
      x ∈ ((items.foldl groupStep p).1).orderList →
      x ∈ p.1.orderList ∨ x ∈ items.map Prod.fst := by
  induction items with
  | nil =>
    intro p x hx
    exact Or.inl hx
  | cons it rest ih =>
    intro p x hx
    rcases ih (groupStep p it) x hx with h | h
    · rcases groupStep_orderList_subset p it x h with rfl | h2
      · exact Or.inr (List.mem_map_of_mem Prod.fst (List.mem_cons_self it rest))
      · exact Or.inl h2
    · exact Or.inr (by rw [List.map_cons]; exact List.mem_cons_of_mem _ h)

theorem foldl_preserves_before (x y : Str) (items : List (Str × M1Chan)) :
    ∀ (p : GroupAcc × Int),
      GroupInv p.1 → x ∈ p.1.orderList → y ∈ p.1.orderList →
      idxOf x p.1.orderList < idxOf y p.1.orderList →
      GroupInv ((items.foldl groupStep p).1)
      ∧ x ∈ ((items.foldl groupStep p).1).orderList
      ∧ y ∈ ((items.foldl groupStep p).1).orderList
      ∧ idxOf x ((items.foldl groupStep p).1).orderList
          < idxOf y ((items.foldl groupStep p).1).orderList := by
  induction items with
  | nil =>
    intro p h1 h2 h3 h4
    exact ⟨h1, h2, h3, h4⟩
  | cons it rest ih =>
    intro p hinv hx hy hlt
    have hinv' : GroupInv ((groupStep p it).1) := groupStep_inv p.1 p.2 it hinv
    cases hlk : lookupA p.1.channels it.1 with
    | some c =>
      have heq := groupStep_match_orderList p.1 p.2 it hlk
      exact ih (groupStep p it) hinv' (heq ▸ hx) (heq ▸ hy) (heq ▸ hlt)
    | none =>
      have hni : it.1 ∉ p.1.orderList := by
        intro hm
        have := (hinv.2 it.1).mpr hm
        rw [hlk] at this
        simp at this
      have heq :
          ((groupStep p it).1).orderList =
            pyInsert p.1.orderList (p.2 + 1).toNat it.1 := by
        have := groupStep_insert p.1 p.2 it hlk
        rw [this]
      have hax : it.1 ≠ x := fun he => hni (he ▸ hx)
      have hay : it.1 ≠ y := fun he => hni (he ▸ hy)
      refine ih (groupStep p it) hinv' ?_ ?_ ?_
      · rw [heq]
        exact (mem_pyInsert x it.1 _ _).mpr (Or.inr hx)
      · rw [heq]
        exact (mem_pyInsert y it.1 _ _).mpr (Or.inr hy)
      · rw [heq]
        exact before_pyInsert p.1.orderList _ hax hay hx hy hlt

theorem mid_phase (A : Str) :
    ∀ (mid : List (Str × M1Chan)) (acc : GroupAcc) (lk : Int),
      GroupInv acc →
      (mid.map Prod.fst).Nodup →
      (∀ y ∈ mid, y.1 ∉ acc.orderList) →
      A ∈ acc.orderList →
      ((idxOf A acc.orderList : Nat) : Int) ≤ lk →
      GroupInv ((mid.foldl groupStep (acc, lk)).1)
      ∧ A ∈ ((mid.foldl groupStep (acc, lk)).1).orderList
      ∧ ((idxOf A ((mid.foldl groupStep (acc, lk)).1).orderList : Nat) : Int)
          ≤ (mid.foldl groupStep (acc, lk)).2 := by
  intro mid
  induction mid with
  | nil =>
    intro acc lk h1 _ _ h4 h5
    exact ⟨h1, h4, h5⟩
  | cons x rest ih =>
    intro acc lk hinv hnodup hnot hA hAi
    have hx1 : x.1 ∉ acc.orderList := hnot x (List.mem_cons_self x rest)
    have hnone : lookupA acc.channels x.1 = none := by
      cases hl : lookupA acc.channels x.1 with
      | none => rfl
      | some c => exact absurd ((hinv.2 x.1).mp (by rw [hl]; rfl)) hx1
    have hstep := groupStep_insert acc lk x hnone
    rw [List.foldl_cons, hstep]
    have hinv1 : GroupInv (⟨acc.channels ++ [(x.1, x.2)],
        pyInsert acc.orderList (lk + 1).toNat x.1⟩ : GroupAcc) := by
      have := groupStep_inv acc lk x hinv
      rw [hstep] at this
      exact this
    have hxA : x.1 ≠ A := fun he => hx1 (he ▸ hA)
    have hAlt : idxOf A acc.orderList < (lk + 1).toNat := by omega
    have hidx : idxOf A (pyInsert acc.orderList (lk + 1).toNat x.1)
        = idxOf A acc.orderList :=
      idxOf_pyInsert_of_lt hxA acc.orderList _ hA hAlt
    rw [List.map_cons, List.nodup_cons] at hnodup
    refine ih _ _ hinv1 hnodup.2 ?_ ?_ ?_
    · intro y hy
      intro hmem
      rcases (mem_pyInsert y.1 x.1 acc.orderList _).mp hmem with he | hmem2
      · exact hnodup.1 (he ▸ List.mem_map_of_mem Prod.fst hy)
      · exact hnot y (List.mem_cons_of_mem x hy) hmem2
    · exact (mem_pyInsert A x.1 _ _).mpr (Or.inr hA)
    · rw [hidx]
      omega

/-- C3, counterexample: with the accumulator group holding `[X, Y]` (built
from a first source), processing a second source-group `[Y, A, X, B]` ends
with order `[X, B, Y, A]`: `A` precedes `B` in the source and neither
existed in the accumulator before the source, yet `B` precedes `A`
afterwards, because the `X` match moved `lastKnownIndex` back to 0 between
the two insertions. -/
theorem merger_relative_order_cex :
    ((groupPass (groupPass ⟨[], []⟩
        [(str "X", ⟨[], []⟩), (str "Y", ⟨[], []⟩)]).1
        [(str "Y", ⟨[], []⟩), (str "A", ⟨[], []⟩),
         (str "X", ⟨[], []⟩), (str "B", ⟨[], []⟩)]).1).orderList
      = [str "X", str "B", str "Y", str "A"]
    ∧ str "A" ∉ ((groupPass (⟨[], []⟩ : GroupAcc)
        [(str "X", ⟨[], []⟩), (str "Y", ⟨[], []⟩)]).1).orderList
    ∧ str "B" ∉ ((groupPass (⟨[], []⟩ : GroupAcc)
        [(str "X", ⟨[], []⟩), (str "Y", ⟨[], []⟩)]).1).orderList
    ∧ idxOf (str "B") [str "X", str "B", str "Y", str "A"]
        < idxOf (str "A") [str "X", str "B", str "Y", str "A"] := by
  decide

/-- C3 (amended): the insertion mechanism is as described
(`lastKnownIndex` starts at -1 per source-group pass, a new channel is
inserted at `lastKnownIndex + 1`, and the index moves to the
inserted/matched position); intra-source order of new channels is
preserved under the additional conditions that the source-group's channel
names are pairwise distinct and that no channel between A and B in the
source existed in the accumulator's group before the pass — without them,
a match moving `lastKnownIndex` backwards between the two insertions can
invert the order. -/
theorem merger_relative_order_amended
    (init : GroupAcc) (pre mid post : List (Str × M1Chan)) (A B : Str × M1Chan)
    (hinv : GroupInv init)
    (hnodup : ((pre ++ A :: mid ++ B :: post).map Prod.fst).Nodup)
    (hA : A.1 ∉ init.orderList)
    (hB : B.1 ∉ init.orderList)
    (hmid : ∀ x ∈ mid, x.1 ∉ init.orderList) :
    A.1 ∈ ((groupPass init (pre ++ A :: mid ++ B :: post)).1).orderList
    ∧ B.1 ∈ ((groupPass init (pre ++ A :: mid ++ B :: post)).1).orderList
    ∧ idxOf A.1 ((groupPass init (pre ++ A :: mid ++ B :: post)).1).orderList
        < idxOf B.1 ((groupPass init (pre ++ A :: mid ++ B :: post)).1).orderList := by
  have hmapeq : (pre ++ A :: mid ++ B :: post).map Prod.fst
      = pre.map Prod.fst ++ A.1 :: (mid.map Prod.fst ++ B.1 :: post.map Prod.fst) := by
    simp
  rw [hmapeq] at hnodup
  have hdisj1 := List.disjoint_of_nodup_append hnodup
  have hrest : (A.1 :: (mid.map Prod.fst ++ B.1 :: post.map Prod.fst)).Nodup :=
    hnodup.of_append_right
  rw [List.nodup_cons] at hrest
  have hAmem : A.1 ∉ mid.map Prod.fst ++ B.1 :: post.map Prod.fst := hrest.1
  have hdisj2 := List.disjoint_of_nodup_append hrest.2
  have hmidnodup : (mid.map Prod.fst).Nodup := hrest.2.of_append_left
  have hApre : A.1 ∉ pre.map Prod.fst := fun h =>
    hdisj1 h (List.mem_cons_self _ _)
  have hAB : A.1 ≠ B.1 := by
    intro h
    exact hAmem (h ▸ List.mem_append_right _ (List.mem_cons_self _ _))
  have hAmid : A.1 ∉ mid.map Prod.fst := fun h => hAmem (List.mem_append_left _ h)
  have hBpre : B.1 ∉ pre.map Prod.fst := fun h =>
    hdisj1 h (List.mem_cons_of_mem _ (List.mem_append_right _ (List.mem_cons_self _ _)))
  have hBmid : B.1 ∉ mid.map Prod.fst := fun h =>
    hdisj2 h (List.mem_cons_self _ _)
  have hmidpre : ∀ y ∈ mid, y.1 ∉ pre.map Prod.fst := by
    intro y hy h
    exact hdisj1 h
      (List.mem_cons_of_mem _ (List.mem_append_left _ (List.mem_map_of_mem Prod.fst hy)))
  have hfold : groupPass init (pre ++ A :: mid ++ B :: post)
      = post.foldl groupStep
          (groupStep (mid.foldl groupStep
            (groupStep (pre.foldl groupStep (init, -1)) A)) B) := by
    unfold groupPass
    rw [List.foldl_append, List.foldl_cons, List.foldl_append, List.foldl_cons]
  rw [hfold]
  rcases hp1 : pre.foldl groupStep (init, -1) with ⟨acc1, lk1⟩
  have hinv1 : GroupInv acc1 := by
    have := groupPass_fold_inv pre (init, -1) hinv
    rw [hp1] at this
    exact this
  have hAp1 : A.1 ∉ acc1.orderList := by
    intro h
    rcases foldl_orderList_subset pre (init, -1) A.1 (by rw [hp1]; exact h) with h2 | h2
    · exact hA h2
    · exact hApre h2
  have hnoneA : lookupA acc1.channels A.1 = none := by
    cases hl : lookupA acc1.channels A.1 with
    | none => rfl
    | some c => exact absurd ((hinv1.2 A.1).mp (by rw [hl]; rfl)) hAp1
  rw [groupStep_insert acc1 lk1 A hnoneA]
  have hinv2 : GroupInv (⟨acc1.channels ++ [(A.1, A.2)],
      pyInsert acc1.orderList (lk1 + 1).toNat A.1⟩ : GroupAcc) := by
    have := groupStep_inv acc1 lk1 A hinv1
    rw [groupStep_insert acc1 lk1 A hnoneA] at this
    exact this
  have hA2mem : A.1 ∈ pyInsert acc1.orderList (lk1 + 1).toNat A.1 :=
    (mem_pyInsert A.1 A.1 _ _).mpr (Or.inl rfl)
  have hA2idx : ((idxOf A.1 (pyInsert acc1.orderList (lk1 + 1).toNat A.1) : Nat) : Int)
      ≤ (((lk1 + 1).toNat : Nat) : Int) := by
    rw [idxOf_pyInsert_self acc1.orderList _ hAp1]
    omega
  have hnot2 : ∀ y ∈ mid,
      y.1 ∉ pyInsert acc1.orderList (lk1 + 1).toNat A.1 := by
    intro y hy hmem
    rcases (mem_pyInsert y.1 A.1 _ _).mp hmem with he | hmem2
    · exact hAmid (he ▸ List.mem_map_of_mem Prod.fst hy)
    · rcases foldl_orderList_subset pre (init, -1) y.1 (by rw [hp1]; exact hmem2) with h2 | h2
      · exact hmid y hy h2
      · exact hmidpre y hy h2
  have hmidres := mid_phase A.1 mid
    ⟨acc1.channels ++ [(A.1, A.2)], pyInsert acc1.orderList (lk1 + 1).toNat A.1⟩
    (((lk1 + 1).toNat : Nat) : Int) hinv2 hmidnodup hnot2 hA2mem hA2idx
  rcases hp3 : mid.foldl groupStep
      (⟨acc1.channels ++ [(A.1, A.2)], pyInsert acc1.orderList (lk1 + 1).toNat A.1⟩,
       (((lk1 + 1).toNat : Nat) : Int)) with ⟨acc3, lk3⟩
  rw [hp3] at hmidres
  obtain ⟨hinv3, hA3mem, hA3idx⟩ := hmidres
  dsimp only at hinv3 hA3mem hA3idx
  have hBp3 : B.1 ∉ acc3.orderList := by
    intro h
    rcases foldl_orderList_subset mid _ B.1 (by rw [hp3]; exact h) with h2 | h2
    · rcases (mem_pyInsert B.1 A.1 _ _).mp h2 with he | h3
      · exact hAB he.symm
      · rcases foldl_orderList_subset pre (init, -1) B.1 (by rw [hp1]; exact h3) with h4 | h4
        · exact hB h4
        · exact hBpre h4
    · exact hBmid h2
  have hnoneB : lookupA acc3.channels B.1 = none := by
    cases hl : lookupA acc3.channels B.1 with
    | none => rfl
    | some c => exact absurd ((hinv3.2 B.1).mp (by rw [hl]; rfl)) hBp3
  rw [groupStep_insert acc3 lk3 B hnoneB]
  have hinv4 : GroupInv (⟨acc3.channels ++ [(B.1, B.2)],
      pyInsert acc3.orderList (lk3 + 1).toNat B.1⟩ : GroupAcc) := by
    have := groupStep_inv acc3 lk3 B hinv3
    rw [groupStep_insert acc3 lk3 B hnoneB] at this
    exact this
  have hA4idx : idxOf A.1 (pyInsert acc3.orderList (lk3 + 1).toNat B.1)
      = idxOf A.1 acc3.orderList :=
    idxOf_pyInsert_of_lt (Ne.symm hAB) acc3.orderList _ hA3mem (by omega)
  have hB4idx : idxOf B.1 (pyInsert acc3.orderList (lk3 + 1).toNat B.1)
      = min (lk3 + 1).toNat acc3.orderList.length :=
    idxOf_pyInsert_self acc3.orderList _ hBp3
  have hlenA := idxOf_lt_length hA3mem
  have hlt4 : idxOf A.1 (pyInsert acc3.orderList (lk3 + 1).toNat B.1)
      < idxOf B.1 (pyInsert acc3.orderList (lk3 + 1).toNat B.1) := by
    rw [hA4idx, hB4idx]
    omega
  have hfin := foldl_preserves_before A.1 B.1 post
    (⟨acc3.channels ++ [(B.1, B.2)], pyInsert acc3.orderList (lk3 + 1).toNat B.1⟩,
     (((lk3 + 1).toNat : Nat) : Int))
    hinv4
    ((mem_pyInsert A.1 B.1 _ _).mpr (Or.inr hA3mem))
    ((mem_pyInsert B.1 B.1 _ _).mpr (Or.inl rfl))
    hlt4
  exact ⟨hfin.2.1, hfin.2.2.1, hfin.2.2.2⟩

/-- C3, witness for the amended theorem at a concrete input. -/
theorem merger_relative_order_amended_witness :
    str "A" ∈ ((groupPass (⟨[], []⟩ : GroupAcc)
        ([] ++ (str "A", (⟨[], []⟩ : M1Chan)) :: [] ++ (str "B", (⟨[], []⟩ : M1Chan)) :: [])).1).orderList
    ∧ str "B" ∈ ((groupPass (⟨[], []⟩ : GroupAcc)
        ([] ++ (str "A", (⟨[], []⟩ : M1Chan)) :: [] ++ (str "B", (⟨[], []⟩ : M1Chan)) :: [])).1).orderList
    ∧ idxOf (str "A") ((groupPass (⟨[], []⟩ : GroupAcc)
        ([] ++ (str "A", (⟨[], []⟩ : M1Chan)) :: [] ++ (str "B", (⟨[], []⟩ : M1Chan)) :: [])).1).orderList
        < idxOf (str "B") ((groupPass (⟨[], []⟩ : GroupAcc)
        ([] ++ (str "A", (⟨[], []⟩ : M1Chan)) :: [] ++ (str "B", (⟨[], []⟩ : M1Chan)) :: [])).1).orderList :=
  merger_relative_order_amended ⟨[], []⟩ [] [] []
    (str "A", ⟨[], []⟩) (str "B", ⟨[], []⟩)
    ⟨List.nodup_nil, by intro n; simp [lookupA]⟩
    (by decide) (by decide) (by decide) (by intro x hx; simp at hx)
